import Mathlib

/-!
Shallow embedding of the MLLP transport script src/HL7Tools/hl7-sender.py.

Bytes are modelled as natural numbers, byte strings as lists of naturals.
The script frames a payload, sends it, accumulates reply chunks until the
terminator pair 0x1C 0x0D occurs in the buffer, the peer closes, or the
per-read socket timeout fires, and finally strips the framing bytes from
both ends of the buffer and decodes the rest as UTF-8, ignoring errors.
-/

namespace HL7Sender

/-- Start Block bytes, the Python constant SB. -/
def SB : List Nat := [0x0b]

/-- End Block bytes, the Python constant EB. -/
def EB : List Nat := [0x1c]

/-- Carriage Return bytes, the Python constant CR. -/
def CR : List Nat := [0x0d]

/-- Frame encoder: SB plus the encoded payload plus EB plus CR. -/
def framed_message (payload : List Nat) : List Nat :=
  SB ++ payload ++ EB ++ CR

/-- Membership test for the byte set handed to Python strip, the three
framing bytes 0x0B, 0x1C and 0x0D. -/
def isStripByte (b : Nat) : Bool :=
  b == 0x0b || b == 0x1c || b == 0x0d

/-- Left half of Python strip: drop leading bytes of the strip set. -/
def lstrip (s : List Nat) : List Nat := s.dropWhile isStripByte

/-- Right half of Python strip: drop trailing bytes of the strip set. -/
def rstrip (s : List Nat) : List Nat :=
  (s.reverse.dropWhile isStripByte).reverse

/-- Python strip with the three framing bytes: drop any run of those bytes
from both ends of the buffer.  This is the frame decoder of the script. -/
def pyStrip (s : List Nat) : List Nat := rstrip (lstrip s)

/-- Decoder following the words of the spec and of claim C4: remove one
leading 0x0B if present, and one trailing run of the bytes 0x1C and 0x0D
if present; every other byte passes through unchanged.  Written from the
claim wording, to be compared with the decoder of the source. -/
def claimedDecode (s : List Nat) : List Nat :=
  let s1 := match s with
    | 0x0b :: rest => rest
    | other => other
  (s1.reverse.dropWhile (fun b => b == 0x1c || b == 0x0d)).reverse

/-- Terminator scan of the receive loop: does the byte pair 0x1C 0x0D occur
contiguously anywhere in the buffer. -/
def hasTerminator : List Nat → Bool
  | [] => false
  | [_] => false
  | a :: b :: rest => (a == 0x1c && b == 0x0d) || hasTerminator (b :: rest)

/-- One observable outcome of a single recv call on the socket.  The socket
carries a per-call timeout set by settimeout: a recv either returns bytes
(or the empty chunk, meaning the peer closed) after dur time units, raises
socket timeout after waiting the full timeout, or raises some other OS
error, identified here by a numeric code. -/
inductive RecvEvent where
  | data (dur : Nat) (bytes : List Nat)
  | timeout
  | error (dur : Nat) (code : Nat)
  deriving DecidableEq

/-- How long a recv call takes: a data chunk arrives after its duration, a
timeout is raised after the full per-read timeout T. -/
def RecvEvent.dur (T : Nat) : RecvEvent → Nat
  | .data d _ => d
  | .timeout => T
  | .error d _ => d

/-- A trace is well formed for per-read timeout T when no single recv call
takes longer than T: the socket raises after at most T units of silence. -/
def WFTrace (T : Nat) (events : List RecvEvent) : Prop :=
  ∀ e ∈ events, e.dur T ≤ T

/-- How the receive loop ended without an uncaught exception: terminator
found in the buffer, peer closed the stream, or socket timeout caught by
the except clause.  Each carries the accumulated buffer and the total
elapsed time. -/
inductive LoopResult where
  | ackComplete (buf : List Nat) (elapsed : Nat)
  | eof (buf : List Nat) (elapsed : Nat)
  | timedOut (buf : List Nat) (elapsed : Nat)
  deriving DecidableEq

/-- Outcome of the try block around the loop: a LoopResult, or an OS error
other than timeout, which the except clause does not catch. -/
inductive LoopOut where
  | done (r : LoopResult)
  | raised (code : Nat)
  deriving DecidableEq

/-- Buffer accumulated by the loop at the moment it ended. -/
def LoopResult.buf : LoopResult → List Nat
  | .ackComplete b _ => b
  | .eof b _ => b
  | .timedOut b _ => b

/-- Total time units spent in the loop. -/
def LoopResult.elapsed : LoopResult → Nat
  | .ackComplete _ t => t
  | .eof _ t => t
  | .timedOut _ t => t

/-- Whether the loop ended through the except-timeout branch, which prints
the timed-out message. -/
def LoopResult.isTimeout : LoopResult → Bool
  | .timedOut _ _ => true
  | _ => false

/-- The receive loop of the script, driven by a trace of recv outcomes:
while True: chunk = recv; if not chunk: break; buffer += chunk; if the
terminator occurs in the buffer: break.  Socket timeout is caught by the
surrounding except; any other error propagates.  T is the per-read socket
timeout, acc the buffer so far, t the time elapsed so far.  none means the
trace was exhausted while the loop was still blocked in recv. -/
def recvLoop (T : Nat) (acc : List Nat) (t : Nat) : List RecvEvent → Option LoopOut
  | [] => none
  | RecvEvent.timeout :: _ => some (.done (.timedOut acc (t + T)))
  | RecvEvent.error _ code :: _ => some (.raised code)
  | RecvEvent.data d bytes :: rest =>
    if bytes = [] then some (.done (.eof acc (t + d)))
    else
      if hasTerminator (acc ++ bytes) then
        some (.done (.ackComplete (acc ++ bytes) (t + d)))
      else recvLoop T (acc ++ bytes) (t + d) rest

/-- Observable end of one whole send and receive cycle.  finished means the
script ran to its end: the flag records whether the timed-out message was
printed, the option holds the stripped acknowledgment bytes, none when the
buffer was empty and the script printed that no ACK was received.
exception means an uncaught error propagated out of the with block. -/
inductive CycleResult where
  | finished (timeoutReported : Bool) (ack : Option (List Nat))
  | exception (code : Nat)
  deriving DecidableEq

/-- One full cycle after the connection is up: sendall either raises
(sendErr) or succeeds, then the receive loop runs, then the with block
closes the socket — modelled as try/finally, so the boolean closed flag of
the result is set on the normal path and on the exception path alike — and
finally the buffer is stripped and reported.  The returned boolean records
that the connection was closed when the cycle ended. -/
def sendReceive (sendErr : Option Nat) (T : Nat) (events : List RecvEvent) :
    Option (CycleResult × Bool) :=
  match sendErr with
  | some e => some (.exception e, true)
  | none =>
    match recvLoop T [] 0 events with
    | none => none
    | some (.raised e) => some (.exception e, true)
    | some (.done r) =>
      some (.finished r.isTimeout
        (if r.buf = [] then none else some (pyStrip r.buf)), true)

/-- A UTF-8 continuation byte: 0x80 through 0xBF. -/
def Cont (b : Nat) : Prop := 0x80 ≤ b ∧ b ≤ 0xbf

instance (b : Nat) : Decidable (Cont b) := by unfold Cont; infer_instance

/-- Lower bound for the second byte of a three-byte sequence, depending on
the lead byte: 0xE0 forbids overlong encodings. -/
def cont3lo (b1 : Nat) : Nat := if b1 = 0xe0 then 0xa0 else 0x80

/-- Upper bound for the second byte of a three-byte sequence: 0xED excludes
the surrogate range. -/
def cont3hi (b1 : Nat) : Nat := if b1 = 0xed then 0x9f else 0xbf

/-- Lower bound for the second byte of a four-byte sequence: 0xF0 forbids
overlong encodings. -/
def cont4lo (b1 : Nat) : Nat := if b1 = 0xf0 then 0x90 else 0x80

/-- Upper bound for the second byte of a four-byte sequence: 0xF4 caps the
code point at 0x10FFFF. -/
def cont4hi (b1 : Nat) : Nat := if b1 = 0xf4 then 0x8f else 0xbf

/-- If a well-formed UTF-8 sequence starts at the head of the list, its
decoded code point and its length in bytes; none otherwise. -/
def utf8Step : List Nat → Option (Nat × Nat)
  | [] => none
  | b1 :: rest =>
    if b1 < 0x80 then some (b1, 1)
    else if 0xc2 ≤ b1 ∧ b1 ≤ 0xdf then
      match rest with
      | b2 :: _ =>
        if Cont b2 then some ((b1 - 0xc0) * 0x40 + (b2 - 0x80), 2) else none
      | [] => none
    else if 0xe0 ≤ b1 ∧ b1 ≤ 0xef then
      match rest with
      | b2 :: b3 :: _ =>
        if cont3lo b1 ≤ b2 ∧ b2 ≤ cont3hi b1 ∧ Cont b3 then
          some ((b1 - 0xe0) * 0x1000 + (b2 - 0x80) * 0x40 + (b3 - 0x80), 3)
        else none
      | _ => none
    else if 0xf0 ≤ b1 ∧ b1 ≤ 0xf4 then
      match rest with
      | b2 :: b3 :: b4 :: _ =>
        if cont4lo b1 ≤ b2 ∧ b2 ≤ cont4hi b1 ∧ Cont b3 ∧ Cont b4 then
          some ((b1 - 0xf0) * 0x40000 + (b2 - 0x80) * 0x1000 +
                (b3 - 0x80) * 0x40 + (b4 - 0x80), 4)
        else none
      | _ => none
    else none

/-- Number of bytes the ignore error handler of the UTF-8 codec skips at an
ill-formed position: the maximal subpart of the ill-formed sequence, which
is the longest prefix that could still start a valid sequence, at least
one byte. -/
def badLen : List Nat → Nat
  | b1 :: b2 :: rest =>
    if 0xe0 ≤ b1 ∧ b1 ≤ 0xef ∧ cont3lo b1 ≤ b2 ∧ b2 ≤ cont3hi b1 then 2
    else if 0xf0 ≤ b1 ∧ b1 ≤ 0xf4 ∧ cont4lo b1 ≤ b2 ∧ b2 ≤ cont4hi b1 then
      match rest with
      | b3 :: _ => if Cont b3 then 3 else 2
      | [] => 2
    else 1
  | _ => 1

/-- Fuelled UTF-8 decoder over byte lists, producing the code points.  In
strict mode an ill-formed position yields none, as the str decode method
raises; with strict off the maximal subpart is skipped, as the ignore
error handler does.  One unit of fuel per decoded or skipped position;
since each position consumes at least one byte, fuel equal to the length
of the input always suffices. -/
def utf8DecodeFuel (strict : Bool) : Nat → List Nat → Option (List Nat)
  | _, [] => some []
  | 0, _ :: _ => none
  | fuel + 1, b :: rest =>
    match utf8Step (b :: rest) with
    | some (cp, n) =>
      (utf8DecodeFuel strict fuel ((b :: rest).drop n)).map (cp :: ·)
    | none =>
      if strict then none
      else utf8DecodeFuel strict fuel ((b :: rest).drop (badLen (b :: rest)))

/-- UTF-8 decode of a byte list: strict mode models bytes decode with no
handler, non-strict models errors equal ignore, as the script uses. -/
def utf8Decode (strict : Bool) (bs : List Nat) : Option (List Nat) :=
  utf8DecodeFuel strict bs.length bs

/-- The printed acknowledgment: the buffer stripped of framing bytes at
both ends, then decoded as UTF-8 with errors ignored, as code points. -/
def ack_str (buf : List Nat) : List Nat :=
  (utf8Decode false (pyStrip buf)).getD []

/-- A payload is border safe when neither its first nor its last byte is
one of the three framing bytes that strip removes, so stripping the frame
cannot eat into it.  The empty payload is border safe. -/
def borderSafe (p : List Nat) : Bool :=
  (p.head?.all fun b => !isStripByte b) && (p.getLast?.all fun b => !isStripByte b)

end HL7Sender

namespace HL7Sender

theorem dropWhile_append_all {P : Nat → Bool} :
    ∀ {a : List Nat} (l : List Nat), (∀ x ∈ a, P x = true) →
      (a ++ l).dropWhile P = l.dropWhile P := by
  intro a
  induction a with
  | nil => intro l _; rfl
  | cons x a ih =>
    intro l h
    have hx : P x = true := h x (by simp)
    simp only [List.cons_append, List.dropWhile_cons, hx, if_pos]
    exact ih l (fun y hy => h y (by simp [hy]))

theorem dropWhile_head_false {P : Nat → Bool} {l : List Nat} {x : Nat}
    (hh : l.head? = some x) (hx : P x = false) : l.dropWhile P = l := by
  cases l with
  | nil => simp at hh
  | cons y t =>
    simp only [List.head?_cons, Option.some_inj] at hh
    subst hh
    simp [List.dropWhile_cons, hx]

theorem dropWhile_all_nil {P : Nat → Bool} {a : List Nat}
    (h : ∀ x ∈ a, P x = true) : a.dropWhile P = [] := by
  have := dropWhile_append_all (P := P) (a := a) [] h
  simpa using this

theorem dropWhile_append_stop {P : Nat → Bool} :
    ∀ {a : List Nat} (l : List Nat), (∃ x ∈ a, P x = false) →
      (a ++ l).dropWhile P = a.dropWhile P ++ l := by
  intro a
  induction a with
  | nil => intro l h; simp at h
  | cons y a ih =>
    intro l h
    cases hy : P y with
    | true =>
      simp only [List.cons_append, List.dropWhile_cons, hy, if_pos]
      refine ih l ?_
      obtain ⟨x, hxa, hxP⟩ := h
      rcases List.mem_cons.mp hxa with rfl | hxa2
      · rw [hy] at hxP; cases hxP
      · exact ⟨x, hxa2, hxP⟩
    | false =>
      simp [List.cons_append, List.dropWhile_cons, hy]

theorem rstrip_of_last {s : List Nat}
    (h : ∀ x, s.getLast? = some x → isStripByte x = false) : rstrip s = s := by
  cases hs : s.reverse.head? with
  | none =>
    have : s.reverse = [] := by
      cases hrev : s.reverse with
      | nil => rfl
      | cons a t => rw [hrev] at hs; simp at hs
    have hnil : s = [] := by
      have := congrArg List.reverse this
      simpa using this
    simp [rstrip, hnil]
  | some x =>
    have hlast : s.getLast? = some x := by rw [← List.head?_reverse]; exact hs
    have hx : isStripByte x = false := h x hlast
    unfold rstrip
    rw [dropWhile_head_false hs hx, List.reverse_reverse]

theorem pyStrip_sandwich {a m b : List Nat}
    (ha : ∀ x ∈ a, isStripByte x = true)
    (hb : ∀ x ∈ b, isStripByte x = true)
    (hm1 : ∀ x, m.head? = some x → isStripByte x = false)
    (hm2 : ∀ x, m.getLast? = some x → isStripByte x = false) :
    pyStrip (a ++ m ++ b) = m := by
  cases m with
  | nil =>
    have h1 : lstrip (a ++ [] ++ b) = [] := by
      unfold lstrip
      rw [List.append_nil, dropWhile_append_all b ha]
      exact dropWhile_all_nil hb
    rw [pyStrip, h1]
    rfl
  | cons h t =>
    have hh : isStripByte h = false := hm1 h (by simp)
    have h1 : lstrip (a ++ (h :: t) ++ b) = (h :: t) ++ b := by
      unfold lstrip
      rw [List.append_assoc, dropWhile_append_all ((h :: t) ++ b) ha]
      exact dropWhile_head_false (by simp) hh
    have h2 : rstrip ((h :: t) ++ b) = h :: t := by
      unfold rstrip
      rw [List.reverse_append, dropWhile_append_all (h :: t).reverse
        (fun x hx => hb x (by simpa using hx))]
      have hhead : (h :: t).reverse.head? = (h :: t).getLast? :=
        List.head?_reverse (h :: t)
      cases hg : (h :: t).getLast? with
      | none => simp at hg
      | some x =>
        have hx : isStripByte x = false := hm2 x hg
        rw [dropWhile_head_false (by rw [hhead, hg]) hx, List.reverse_reverse]
    rw [pyStrip, h1, h2]

theorem pyStrip_frame {p : List Nat}
    (h1 : ∀ x, p.head? = some x → isStripByte x = false)
    (h2 : ∀ x, p.getLast? = some x → isStripByte x = false) :
    pyStrip (framed_message p) = p := by
  have hshape : framed_message p = [0x0b] ++ p ++ [0x1c, 0x0d] := by
    simp [framed_message, SB, EB, CR]
  rw [hshape]
  exact pyStrip_sandwich (by decide) (by decide) h1 h2

theorem hasTerminator_cons_ne {a : Nat} (l : List Nat) (ha : a ≠ 0x1c) :
    hasTerminator (a :: l) = hasTerminator l := by
  cases l with
  | nil => simp [hasTerminator]
  | cons b r =>
    have : (a == 0x1c) = false := by simp [ha]
    simp [hasTerminator, this]

theorem hasTerminator_append_right {s : List Nat} (t : List Nat)
    (h : hasTerminator s = true) : hasTerminator (s ++ t) = true := by
  induction s with
  | nil => simp [hasTerminator] at h
  | cons a s ih =>
    cases s with
    | nil => simp [hasTerminator] at h
    | cons b r =>
      simp only [hasTerminator, Bool.or_eq_true] at h
      rcases h with h | h
      · simp only [List.cons_append, hasTerminator, List.cons_append] at *
        simp [h]
      · have := ih h
        simp only [List.cons_append, hasTerminator] at this ⊢
        simp [this]

theorem hasTerminator_concat_term (s : List Nat) :
    hasTerminator (s ++ [0x1c, 0x0d]) = true := by
  induction s with
  | nil => decide
  | cons a s ih =>
    cases s with
    | nil => simp [hasTerminator]
    | cons b r =>
      simp only [List.cons_append, hasTerminator] at ih ⊢
      simp [ih]

theorem hasTerminator_append_eob {p : List Nat} (h : hasTerminator p = false) :
    hasTerminator (p ++ [0x1c]) = false := by
  induction p with
  | nil => decide
  | cons a p ih =>
    cases p with
    | nil => simp [hasTerminator]
    | cons b r =>
      simp only [hasTerminator, Bool.or_eq_false_iff] at h
      have := ih h.2
      simp only [List.cons_append, hasTerminator, Bool.or_eq_false_iff] at this ⊢
      exact ⟨h.1, this⟩

theorem frame_shape (p : List Nat) :
    framed_message p = ((0x0b :: p) ++ [0x1c]) ++ [0x0d] := by
  simp [framed_message, SB, EB, CR]

theorem frame_hasTerminator (p : List Nat) :
    hasTerminator (framed_message p) = true := by
  have : framed_message p = (0x0b :: p) ++ [0x1c, 0x0d] := by
    simp [framed_message, SB, EB, CR]
  rw [this]
  exact hasTerminator_concat_term _

theorem frame_proper_prefix_noTerm {p q : List Nat}
    (hp : hasTerminator p = false)
    (hq : q <+: framed_message p) (hne : q ≠ framed_message p) :
    hasTerminator q = false := by
  obtain ⟨u, hu⟩ := hq
  rw [frame_shape] at hu hne
  have hu_ne : u ≠ [] := by
    intro h
    rw [h, List.append_nil] at hu
    exact hne hu
  rcases List.eq_nil_or_concat u with rfl | ⟨u2, x, rfl⟩
  · exact absurd rfl hu_ne
  · rw [List.concat_eq_append, ← List.append_assoc] at hu
    have hdl := congrArg List.dropLast hu
    rw [List.dropLast_concat, List.dropLast_concat] at hdl
    by_contra hterm
    have hterm2 : hasTerminator q = true := by
      cases h : hasTerminator q
      · exact absurd h hterm
      · rfl
    have h3 : hasTerminator ((0x0b :: p) ++ [0x1c]) = true := by
      rw [← hdl]
      exact hasTerminator_append_right _ hterm2
    have h4 : hasTerminator ((0x0b :: p) ++ [0x1c]) = false := by
      have : (0x0b : Nat) ≠ 0x1c := by decide
      rw [List.cons_append, hasTerminator_cons_ne _ this]
      exact hasTerminator_append_eob hp
    rw [h3] at h4
    cases h4

theorem recvLoop_chunks (T : Nat) (frame : List Nat)
    (hterm : hasTerminator frame = true)
    (hpre : ∀ q, q <+: frame → q ≠ frame → hasTerminator q = false) :
    ∀ (chunks : List (List Nat)) (durs : List Nat) (acc : List Nat) (t : Nat),
      durs.length = chunks.length →
      (∀ c ∈ chunks, c ≠ []) →
      acc ++ chunks.flatten = frame →
      acc ≠ frame →
      ∃ u, recvLoop T acc t (List.zipWith RecvEvent.data durs chunks) =
        some (.done (.ackComplete frame u)) := by
  intro chunks
  induction chunks with
  | nil =>
    intro durs acc t _ _ hcat hne
    rw [List.flatten_nil, List.append_nil] at hcat
    exact absurd hcat hne
  | cons c cs ih =>
    intro durs acc t hlen hne hcat hneq
    cases durs with
    | nil => simp at hlen
    | cons d ds =>
      simp only [List.length_cons, Nat.succ.injEq] at hlen
      have hc : c ≠ [] := hne c (by simp)
      have hcat2 : (acc ++ c) ++ cs.flatten = frame := by
        rw [List.append_assoc, ← List.flatten_cons]
        exact hcat
      simp only [List.zipWith_cons_cons, recvLoop, if_neg hc]
      cases hT : hasTerminator (acc ++ c) with
      | true =>
        have heq : acc ++ c = frame := by
          by_contra hne2
          have := hpre (acc ++ c) ⟨cs.flatten, hcat2⟩ hne2
          rw [hT] at this
          cases this
        rw [if_pos rfl]
        exact ⟨t + d, by rw [heq]⟩
      | false =>
        rw [if_neg (by simp)]
        have hneq2 : acc ++ c ≠ frame := by
          intro h
          rw [h, hterm] at hT
          cases hT
        exact ih ds (acc ++ c) (t + d) hlen
          (fun x hx => hne x (by simp [hx])) hcat2 hneq2

theorem utf8Step_pos {l : List Nat} {cp n : Nat}
    (h : utf8Step l = some (cp, n)) : 0 < n := by
  rcases l with _ | ⟨b1, _ | ⟨b2, _ | ⟨b3, _ | ⟨b4, rest⟩⟩⟩⟩ <;>
    simp only [utf8Step] at h <;>
    (try split_ifs at h) <;>
    first
      | exact Option.noConfusion h
      | (injection h with h1; injection h1 with h2 h3; omega)

theorem badLen_pos (l : List Nat) : 0 < badLen l := by
  rcases l with _ | ⟨b1, _ | ⟨b2, _ | ⟨b3, rest⟩⟩⟩ <;>
    simp only [badLen] <;>
    (try split_ifs) <;> omega

theorem utf8DecodeFuel_ignore_isSome :
    ∀ (fuel : Nat) (bs : List Nat), bs.length ≤ fuel →
      (utf8DecodeFuel false fuel bs).isSome = true := by
  intro fuel
  induction fuel with
  | zero =>
    intro bs h
    cases bs with
    | nil => rfl
    | cons b r => simp at h
  | succ n ih =>
    intro bs h
    cases bs with
    | nil => rfl
    | cons b rest =>
      simp only [utf8DecodeFuel]
      cases hs : utf8Step (b :: rest) with
      | some p =>
        obtain ⟨cp, k⟩ := p
        have hk := utf8Step_pos hs
        have hlen : ((b :: rest).drop k).length ≤ n := by
          rw [List.length_drop]
          simp only [List.length_cons] at h ⊢
          omega
        rw [Option.isSome_map']
        exact ih _ hlen
      | none =>
        simp only [Bool.false_eq_true, if_false]
        have hb := badLen_pos (b :: rest)
        have hlen : ((b :: rest).drop (badLen (b :: rest))).length ≤ n := by
          rw [List.length_drop]
          simp only [List.length_cons] at h ⊢
          omega
        exact ih _ hlen

theorem utf8DecodeFuel_strict_agree :
    ∀ (fuel : Nat) (bs cs : List Nat), utf8DecodeFuel true fuel bs = some cs →
      utf8DecodeFuel false fuel bs = some cs := by
  intro fuel
  induction fuel with
  | zero =>
    intro bs cs h
    cases bs with
    | nil => exact h
    | cons b r => simp [utf8DecodeFuel] at h
  | succ n ih =>
    intro bs cs h
    cases bs with
    | nil => exact h
    | cons b rest =>
      simp only [utf8DecodeFuel] at h ⊢
      split at h
      next cp k heq =>
        cases hrec : utf8DecodeFuel true n ((b :: rest).drop k) with
        | none => rw [hrec] at h; simp at h
        | some cs2 =>
          rw [hrec] at h
          simp only [Option.map_some', Option.some.injEq] at h
          rw [ih _ _ hrec, Option.map_some', h]
      next heq =>
        simp at h

theorem utf8Decode_ignore_isSome (bs : List Nat) :
    (utf8Decode false bs).isSome = true :=
  utf8DecodeFuel_ignore_isSome bs.length bs (Nat.le_refl _)

theorem utf8Decode_strict_agree {bs cs : List Nat}
    (h : utf8Decode true bs = some cs) : utf8Decode false bs = some cs :=
  utf8DecodeFuel_strict_agree bs.length bs cs h

theorem borderSafe_spec {p : List Nat} (h : borderSafe p = true) :
    (∀ x, p.head? = some x → isStripByte x = false) ∧
    (∀ x, p.getLast? = some x → isStripByte x = false) := by
  unfold borderSafe at h
  rw [Bool.and_eq_true] at h
  constructor
  · intro x hx
    have h1 := h.1
    rw [hx] at h1
    simpa using h1
  · intro x hx
    have h2 := h.2
    rw [hx] at h2
    simpa using h2

/-- C1: for every payload byte sequence, including the empty one, the frame
encoder produces exactly 0x0B then the payload then 0x1C then 0x0D; hence
the framed output starts with byte 0x0B, ends with the byte pair
0x1C 0x0D, and has length three more than the payload. -/
theorem frame_encoder_exact (p : List Nat) :
    framed_message p = [0x0b] ++ p ++ [0x1c, 0x0d] ∧
    (framed_message p).head? = some 0x0b ∧
    [0x1c, 0x0d] <:+ framed_message p ∧
    (framed_message p).length = p.length + 3 := by
  refine ⟨?_, ?_, ?_, ?_⟩
  · simp [framed_message, SB, EB, CR]
  · simp [framed_message, SB, EB, CR]
  · exact ⟨[0x0b] ++ p, by simp [framed_message, SB, EB, CR]⟩
  · simp [framed_message, SB, EB, CR]

/-- C2 counterexample: the payload consisting of the single byte 0x0D
contains no embedded 0x1C 0x0D pair, yet decoding its encoding does not
return it: the strip-based decoder also removes the trailing 0x0D that
belongs to the payload, giving the empty sequence. -/
theorem roundtrip_fails_cr_payload :
    hasTerminator [0x0d] = false ∧
    pyStrip (framed_message [0x0d]) = [] ∧
    pyStrip (framed_message [0x0d]) ≠ [0x0d] := by
  decide

/-- C2 amended: decoding the encoding returns the payload unchanged for
every payload whose first and last bytes are not framing bytes
(0x0B, 0x1C, 0x0D); a payload beginning or ending in one of those three
bytes is further trimmed by the strip-based decoder. -/
theorem roundtrip_border_safe (p : List Nat) (h : borderSafe p = true) :
    pyStrip (framed_message p) = p :=
  pyStrip_frame (borderSafe_spec h).1 (borderSafe_spec h).2

theorem roundtrip_border_safe_witness :
    pyStrip (framed_message [0x50, 0x4f, 0x4e, 0x47]) = [0x50, 0x4f, 0x4e, 0x47] :=
  roundtrip_border_safe [0x50, 0x4f, 0x4e, 0x47] (by decide)

/-- C4 counterexample: on the input 0x0D 0x41 the claimed decoder passes
the leading 0x0D through unchanged, since it is not a leading 0x0B and not
part of a trailing run, but the decoder of the code strips it: Python
strip removes the three framing bytes from both ends alike. -/
theorem decoder_strips_more_than_claimed :
    claimedDecode [0x0d, 0x41] = [0x0d, 0x41] ∧
    pyStrip [0x0d, 0x41] = [0x41] ∧
    pyStrip [0x0d, 0x41] ≠ claimedDecode [0x0d, 0x41] := by
  decide

/-- C4 amended: the frame decoder removes from both ends of the input every
maximal run of bytes drawn from the set 0x0B, 0x1C, 0x0D — leading runs of
any of the three bytes, not only a single 0x0B, and likewise trailing runs
— and every interior byte is passed through unchanged: surrounding any
border-safe middle part with runs of framing bytes strips to exactly that
middle part. -/
theorem decoder_strips_framing_runs (a m b : List Nat)
    (ha : ∀ x ∈ a, isStripByte x = true)
    (hb : ∀ x ∈ b, isStripByte x = true)
    (hm : borderSafe m = true) :
    pyStrip (a ++ m ++ b) = m :=
  pyStrip_sandwich ha hb (borderSafe_spec hm).1 (borderSafe_spec hm).2

theorem decoder_strips_framing_runs_witness :
    pyStrip ([0x0d, 0x0b] ++ [0x48, 0x0b, 0x49] ++ [0x1c, 0x0d, 0x0d]) =
      [0x48, 0x0b, 0x49] :=
  decoder_strips_framing_runs [0x0d, 0x0b] [0x48, 0x0b, 0x49] [0x1c, 0x0d, 0x0d]
    (by decide) (by decide) (by decide)

theorem hasTerminator_replicate (k : Nat) :
    hasTerminator (List.replicate k 0x41) = false := by
  induction k with
  | zero => rfl
  | succ k ih =>
    rw [List.replicate_succ, hasTerminator_cons_ne _ (by decide)]
    exact ih

theorem recvLoop_trickle (n : Nat) :
    ∀ (k t : Nat),
      recvLoop 5 (List.replicate k 0x41) t
        (List.replicate n (RecvEvent.data 5 [0x41]) ++ [RecvEvent.data 5 [0x1c, 0x0d]]) =
        some (.done (.ackComplete (List.replicate (k + n) 0x41 ++ [0x1c, 0x0d])
          (t + 5 * (n + 1)))) := by
  induction n with
  | zero =>
    intro k t
    simp only [List.replicate_zero, List.nil_append, recvLoop]
    rw [if_neg (by simp), if_pos (hasTerminator_concat_term _)]
    norm_num
  | succ n ih =>
    intro k t
    simp only [List.replicate_succ, List.cons_append, recvLoop]
    rw [if_neg (by simp)]
    have hrep : List.replicate k 0x41 ++ [0x41] = List.replicate (k + 1) 0x41 :=
      (List.replicate_succ' k 0x41).symm
    rw [hrep]
    rw [if_neg (by rw [hasTerminator_replicate]; simp)]
    have h1 : k + (n + 1) = (k + 1) + n := by omega
    have h2 : t + 5 * (n + 1 + 1) = (t + 5) + 5 * (n + 1) := by ring
    rw [h1, h2]
    exact ih (k + 1) (t + 5)

/-- C3 counterexample: with the per-read timeout of 5 units, a peer that
delivers one chunk every 4 units without the terminator keeps the call
running: on a well-formed trace of three such reads the loop ends in
success at elapsed time 12, past the 5 unit deadline, and never reports a
timeout. -/
theorem deadline_exceeded_by_trickle :
    WFTrace 5 [RecvEvent.data 4 [0x41], RecvEvent.data 4 [0x41],
      RecvEvent.data 4 [0x1c, 0x0d]] ∧
    recvLoop 5 [] 0 [RecvEvent.data 4 [0x41], RecvEvent.data 4 [0x41],
      RecvEvent.data 4 [0x1c, 0x0d]] =
      some (.done (.ackComplete [0x41, 0x41, 0x1c, 0x0d] 12)) ∧
    12 > 5 := by
  refine ⟨by unfold WFTrace; decide, by decide, by decide⟩

/-- C3 amended: the receive phase is bounded per read, not by one overall
deadline that the claim asserts: the socket timeout resets on each
arriving chunk.  Hence (i) with no bytes arriving at all the loop reports
a timeout after exactly one read timeout T, within the deadline, but (ii)
a peer that keeps sending bytes without the terminator keeps the call
running past any bound: for every N there is a well-formed trace for
per-read timeout 5 on which the loop ends successfully later than N. -/
theorem per_read_timeout_behavior :
    (∀ (T : Nat) (tr : List RecvEvent),
      recvLoop T [] 0 (RecvEvent.timeout :: tr) =
        some (.done (.timedOut [] T))) ∧
    (∀ N : Nat, ∃ events : List RecvEvent, WFTrace 5 events ∧
      ∃ buf t, recvLoop 5 [] 0 events =
        some (.done (.ackComplete buf t)) ∧ N < t) := by
  constructor
  · intro T tr
    simp [recvLoop]
  · intro N
    refine ⟨List.replicate N (RecvEvent.data 5 [0x41]) ++
      [RecvEvent.data 5 [0x1c, 0x0d]], ?_, ?_⟩
    · intro e he
      rcases List.mem_append.mp he with h | h
      · rw [List.eq_of_mem_replicate h]; simp [RecvEvent.dur]
      · simp only [List.mem_singleton] at h
        subst h
        simp [RecvEvent.dur]
    · refine ⟨List.replicate (0 + N) 0x41 ++ [0x1c, 0x0d], 0 + 5 * (N + 1), ?_, ?_⟩
      · exact recvLoop_trickle N 0 0
      · omega

/-- C5: the receive loop stops successfully as soon as the accumulated
buffer contains the terminator pair anywhere; for every valid frame
(payload with no embedded terminator) delivered split across arbitrarily
many nonempty chunks whose concatenation equals the frame, the loop still
succeeds with the whole frame as its buffer, and the decoded
acknowledgment is the payload. -/
theorem split_frame_delivery_succeeds (T : Nat) (p : List Nat)
    (durs : List Nat) (chunks : List (List Nat))
    (hlen : durs.length = chunks.length)
    (hne : ∀ c ∈ chunks, c ≠ [])
    (hcat : chunks.flatten = framed_message p)
    (hterm : hasTerminator p = false)
    (hsafe : borderSafe p = true) :
    (∃ t, recvLoop T [] 0 (List.zipWith RecvEvent.data durs chunks) =
      some (.done (.ackComplete (framed_message p) t))) ∧
    pyStrip (framed_message p) = p := by
  constructor
  · refine recvLoop_chunks T (framed_message p) (frame_hasTerminator p)
      (fun q hq hne2 => frame_proper_prefix_noTerm hterm hq hne2)
      chunks durs [] 0 hlen hne (by simpa using hcat) ?_
    intro h
    have := congrArg List.length h
    simp [framed_message, SB, EB, CR] at this
  · exact pyStrip_frame (borderSafe_spec hsafe).1 (borderSafe_spec hsafe).2

theorem split_frame_delivery_succeeds_witness :
    (∃ t, recvLoop 5 [] 0 (List.zipWith RecvEvent.data [1, 1, 1, 1]
      [[0x0b], [0x41], [0x1c], [0x0d]]) =
      some (.done (.ackComplete (framed_message [0x41]) t))) ∧
    pyStrip (framed_message [0x41]) = [0x41] :=
  split_frame_delivery_succeeds 5 [0x41] [1, 1, 1, 1]
    [[0x0b], [0x41], [0x1c], [0x0d]] (by decide) (by decide) (by decide)
    (by decide) (by decide)

/-- C6: a peer that closes at once with zero bytes sent makes the script
report no acknowledgment without the timed-out message; a peer that sends
nothing and never closes makes the loop report a timeout, which elapses
within one read timeout of the deadline; the two observable outcomes are
distinct. -/
theorem empty_vs_timeout_distinct (T d : Nat) (tr1 tr2 : List RecvEvent) :
    sendReceive none T (RecvEvent.data d [] :: tr1) =
      some (.finished false none, true) ∧
    sendReceive none T (RecvEvent.timeout :: tr2) =
      some (.finished true none, true) ∧
    (∃ t, recvLoop T [] 0 (RecvEvent.timeout :: tr2) =
      some (.done (.timedOut [] t)) ∧ t ≤ T) ∧
    CycleResult.finished false none ≠ CycleResult.finished true none := by
  refine ⟨?_, ?_, ⟨T, by simp [recvLoop], Nat.le_refl T⟩, by simp⟩
  · simp [sendReceive, recvLoop, LoopResult.isTimeout, LoopResult.buf]
  · simp [sendReceive, recvLoop, LoopResult.isTimeout, LoopResult.buf]

/-- C7: whatever the outcome of the cycle — acknowledgment, end of stream,
timeout, or an error raised during send or during a read — when the cycle
ends the connection has been closed: the closed flag of every result of
sendReceive is true. -/
theorem connection_closed_all_paths (sendErr : Option Nat) (T : Nat)
    (events : List RecvEvent) (r : CycleResult × Bool)
    (h : sendReceive sendErr T events = some r) : r.2 = true := by
  cases sendErr with
  | some e =>
    simp only [sendReceive, Option.some.injEq] at h
    rw [← h]
  | none =>
    simp only [sendReceive] at h
    revert h
    cases hl : recvLoop T [] 0 events with
    | none => intro h; cases h
    | some lo =>
      cases lo with
      | raised e =>
        intro h
        simp only [Option.some.injEq] at h
        rw [← h]
      | done r2 =>
        intro h
        simp only [Option.some.injEq] at h
        rw [← h]

theorem connection_closed_all_paths_witness :
    ((CycleResult.finished true none, true) : CycleResult × Bool).2 = true :=
  connection_closed_all_paths none 5 [RecvEvent.timeout]
    (CycleResult.finished true none, true) (by decide)

/-- C9: when a single chunk carries bytes beyond the first terminator pair,
the loop keeps the whole chunk as its buffer — it does not cut at the
terminator — and after the end trimming of framing bytes the extra bytes
appear verbatim at the end of the decoded acknowledgment. -/
theorem bytes_after_terminator_kept (T d : Nat) (pre extra : List Nat)
    (tr : List RecvEvent)
    (hpre : ∃ x ∈ pre, isStripByte x = false)
    (hne : extra ≠ [])
    (hlast : extra.getLast?.all (fun b => !isStripByte b) = true) :
    recvLoop T [] 0 (RecvEvent.data d (pre ++ [0x1c, 0x0d] ++ extra) :: tr) =
      some (.done (.ackComplete (pre ++ [0x1c, 0x0d] ++ extra) d)) ∧
    pyStrip (pre ++ [0x1c, 0x0d] ++ extra) =
      pre.dropWhile isStripByte ++ [0x1c, 0x0d] ++ extra := by
  constructor
  · have hterm : hasTerminator (pre ++ [0x1c, 0x0d] ++ extra) = true :=
      hasTerminator_append_right extra (hasTerminator_concat_term pre)
    have hchunk : pre ++ [0x1c, 0x0d] ++ extra ≠ [] := by simp
    simp only [recvLoop, List.nil_append, if_neg hchunk, if_pos hterm]
    norm_num
  · have hstopped : lstrip (pre ++ [0x1c, 0x0d] ++ extra) =
        pre.dropWhile isStripByte ++ ([0x1c, 0x0d] ++ extra) := by
      unfold lstrip
      rw [List.append_assoc]
      exact dropWhile_append_stop _ hpre
    have hlast3 : ∀ x,
        (pre.dropWhile isStripByte ++ ([0x1c, 0x0d] ++ extra)).getLast? =
          some x → isStripByte x = false := by
      intro x hx
      rw [List.getLast?_append_of_ne_nil _ (by simp [hne]),
        List.getLast?_append_of_ne_nil _ hne] at hx
      rw [hx] at hlast
      simpa using hlast
    rw [pyStrip, hstopped, rstrip_of_last hlast3, ← List.append_assoc]

theorem bytes_after_terminator_kept_witness :
    recvLoop 9 [] 0 [RecvEvent.data 2
      ([0x0b, 0x48] ++ [0x1c, 0x0d] ++ [0x0b, 0x50])] =
      some (.done (.ackComplete
        ([0x0b, 0x48] ++ [0x1c, 0x0d] ++ [0x0b, 0x50]) 2)) ∧
    pyStrip ([0x0b, 0x48] ++ [0x1c, 0x0d] ++ [0x0b, 0x50]) =
      [0x0b, 0x48].dropWhile isStripByte ++ [0x1c, 0x0d] ++ [0x0b, 0x50] :=
  bytes_after_terminator_kept 9 2 [0x0b, 0x48] [0x0b, 0x50] []
    (by decide) (by decide) (by decide)

/-- C10: during the receive loop only the socket timeout is caught: a read
that raises any other error ends the loop with that error, the error
propagates out of the cycle as an exception — an outcome distinct from
every finished outcome, so no decoded acknowledgment is produced — and the
connection is still closed on that path. -/
theorem non_timeout_error_propagates :
    (∀ (T : Nat) (acc : List Nat) (t d e : Nat) (tr : List RecvEvent),
      recvLoop T acc t (RecvEvent.error d e :: tr) = some (.raised e)) ∧
    (∀ (T e : Nat) (events : List RecvEvent),
      recvLoop T [] 0 events = some (.raised e) →
      sendReceive none T events = some (.exception e, true)) ∧
    (∀ (e : Nat) (b : Bool) (ack : Option (List Nat)),
      CycleResult.exception e ≠ CycleResult.finished b ack) := by
  refine ⟨?_, ?_, ?_⟩
  · intro T acc t d e tr
    rfl
  · intro T e events h
    simp only [sendReceive]
    rw [h]
  · intro e b ack h
    cases h

theorem non_timeout_error_propagates_witness :
    sendReceive none 5 [RecvEvent.error 1 7] =
      some (.exception 7, true) :=
  non_timeout_error_propagates.2.1 5 7 [RecvEvent.error 1 7] (by decide)

/-- C8: decoding the response payload never fails: ignore-mode UTF-8
decode is defined on every byte sequence, the printed acknowledgment
ack_str is exactly its value on the stripped buffer, and every sequence
that strict decoding accepts decodes in ignore mode to the same code
points, so decodable content is preserved. -/
theorem decode_tolerant_never_fails (bs : List Nat) :
    (utf8Decode false bs).isSome = true ∧
    utf8Decode false (pyStrip bs) = some (ack_str bs) ∧
    (∀ cs, utf8Decode true bs = some cs → utf8Decode false bs = some cs) := by
  refine ⟨utf8Decode_ignore_isSome bs, ?_,
    fun cs h => utf8Decode_strict_agree h⟩
  unfold ack_str
  have h := utf8Decode_ignore_isSome (pyStrip bs)
  cases hv : utf8Decode false (pyStrip bs) with
  | none => rw [hv] at h; cases h
  | some v => rfl

theorem decode_tolerant_never_fails_witness :
    (utf8Decode false [0x48, 0xff, 0x69]).isSome = true ∧
    utf8Decode false [0x48, 0x69] = some [0x48, 0x69] :=
  ⟨(decode_tolerant_never_fails [0x48, 0xff, 0x69]).1,
    (decode_tolerant_never_fails [0x48, 0x69]).2.2 [0x48, 0x69] (by decide)⟩

end HL7Sender
